import Mathlib

/-!
Verification of the `mathcli` line reducer (src/main.rs): a CLI that applies
one binary arithmetic operation as a left fold over a stream of numeric
values read line-by-line, with trimming, a configurable ignored prefix,
blank-line-as-terminator semantics, strict-vs-silent parse-error handling,
and an optional identity-seeded fold.

The embedding models the numeric type `f32` by exact rationals `ℚ` (the
claims under study involve only small exact decimal values), Rust's
`str::trim` by a character-list trim using `Char.isWhitespace` (the inputs
of interest are ASCII), and `str::parse::<f32>` by an exact-rational reading
of the finite decimal literal grammar (optional sign, digits, optional
fractional part, optional exponent). I/O is modelled by passing the list of
input lines explicitly; a run that would `panic!` via `Option::unwrap` on an
empty `fold_first` result is modelled as `none`.
-/

namespace Mathcli

/-- Model of `enum SubCommand` in src/main.rs: the four operations. -/
inductive SubCommand : Type
  | add : SubCommand
  | sub : SubCommand
  | mul : SubCommand
  | div : SubCommand
deriving DecidableEq

/-- Model of the `identity` computed in `main`: `Mul | Div => 1.`, `Add | Sub => 0.`. -/
def identityOf : SubCommand → ℚ
  | SubCommand.mul => 1
  | SubCommand.div => 1
  | SubCommand.add => 0
  | SubCommand.sub => 0

/-- Model of the `operator` computed in `main`: the binary operation for the subcommand. -/
def operatorOf : SubCommand → ℚ → ℚ → ℚ
  | SubCommand.add => fun a b => a + b
  | SubCommand.sub => fun a b => a - b
  | SubCommand.mul => fun a b => a * b
  | SubCommand.div => fun a b => a / b

/-- Model of `struct Opts` (the parsed CLI configuration), without the
logging-only `verbose` field. -/
structure Opts : Type where
  subcmd : SubCommand
  identity_starting_point : Bool
  silent : Bool
  ignore : Nat
deriving DecidableEq

/-- Drop leading whitespace, then trailing whitespace, from a character list. -/
def trimList (cs : List Char) : List Char :=
  ((cs.dropWhile Char.isWhitespace).reverse.dropWhile Char.isWhitespace).reverse

/-- Model of Rust's `str::trim` (restricted to the whitespace characters of
`Char.isWhitespace`, which agrees with Rust on the ASCII range): strip
leading and trailing whitespace. -/
def trim (s : String) : String := String.mk (trimList s.data)

/-- Model of `InputHandler::clean_and_enumerate`: trim each line and tag it
with its zero-based index, in input order. -/
def clean_and_enumerate (lines : List String) : List (Nat × String) :=
  (lines.map trim).enum

/-- Numeric value of a digit character. -/
def digitVal (c : Char) : Nat := c.toNat - '0'.toNat

/-- Numeric value of a digit string, most significant digit first. -/
def digitsVal (cs : List Char) : Nat := cs.foldl (fun n c => 10 * n + digitVal c) 0

/-- Consume an optional leading sign; `true` means negative. -/
def parseSign : List Char → Bool × List Char
  | '-' :: cs => (true, cs)
  | '+' :: cs => (false, cs)
  | cs => (false, cs)

/-- Split at the first `e`/`E`: mantissa part, and the exponent part when present. -/
def splitOnExp (cs : List Char) : List Char × Option (List Char) :=
  let notExpChar : Char → Bool := fun c => !(c == 'e' || c == 'E')
  match cs.dropWhile notExpChar with
  | [] => (cs.takeWhile notExpChar, none)
  | _ :: es => (cs.takeWhile notExpChar, some es)

/-- Parse the mantissa `digits | digits . digits | . digits | digits .`
(at least one digit in total) into (digit value, number of fractional digits). -/
def parseMantissa (cs : List Char) : Option (Nat × Nat) :=
  let intPart := cs.takeWhile Char.isDigit
  match cs.dropWhile Char.isDigit with
  | [] => if intPart.isEmpty then none else some (digitsVal intPart, 0)
  | '.' :: frac =>
    if frac.all Char.isDigit && !(intPart.isEmpty && frac.isEmpty) then
      some (digitsVal (intPart ++ frac), frac.length)
    else none
  | _ => none

/-- Parse an exponent part: optional sign then at least one digit. -/
def parseExpDigits (cs : List Char) : Option Int :=
  let sd := parseSign cs
  if sd.2.isEmpty || !(sd.2.all Char.isDigit) then none
  else some (if sd.1 then -(digitsVal sd.2 : Int) else (digitsVal sd.2 : Int))

/-- Raw decimal literal parse: sign, mantissa digit value, number of
fractional digits, exponent. Fully decidable data. -/
def parseRaw (s : String) : Option (Bool × Nat × Nat × Int) :=
  let sd := parseSign s.data
  let me := splitOnExp sd.2
  match parseMantissa me.1, me.2 with
  | none, _ => none
  | some mf, none => some (sd.1, mf.1, mf.2, 0)
  | some mf, some es =>
    match parseExpDigits es with
    | none => none
    | some e => some (sd.1, mf.1, mf.2, e)

/-- Exact rational value of a raw parse: `sign * digits / 10^fracLen * 10^exp`. -/
def ratOf : Bool × Nat × Nat × Int → ℚ
  | (neg, m, fr, e) =>
    (if neg then -(m : ℚ) else (m : ℚ)) / (10 : ℚ) ^ fr * (10 : ℚ) ^ e

/-- Model of `val.parse::<f32>()` restricted to finite decimal literals
(optional sign, digits, optional fractional part, optional exponent — the
grammar the spec states), read exactly into `ℚ`. -/
def parseNumber (s : String) : Option ℚ := (parseRaw s).map ratOf

/-- Model of `struct InputHandler`. -/
structure InputHandler : Type where
  identity : ℚ
  ignore : Nat
  silent : Bool

/-- Model of `InputHandler::new`: configuration plus the operation's identity. -/
def InputHandler.ofOpts (opts : Opts) : InputHandler :=
  InputHandler.mk (identityOf opts.subcmd) opts.ignore opts.silent

/-- Model of `InputHandler::handle`: interpret one (index, trimmed text)
pair. `Except.ok (some v)` is a value, `Except.ok none` is the stream
terminator, `Except.error msg` is a strict-mode parse failure. -/
def InputHandler.handle (h : InputHandler) (i : Nat) (val : String) :
    Except String (Option ℚ) :=
  if i < h.ignore then Except.ok (some h.identity)
  else if val = "" then Except.ok none
  else
    match parseNumber val with
    | some v => Except.ok (some v)
    | none =>
      if h.silent then Except.ok (some h.identity)
      else Except.error ("Failed to parse " ++ val ++ " at line " ++ toString (i + 1))

/-- Model of `Iterator::map_while`: keep mapped values while `some`, end the
sequence at the first `none` without consuming further elements. -/
def mapWhile {α β : Type} (f : α → Option β) : List α → List β
  | [] => []
  | a :: as =>
    match f a with
    | none => []
    | some b => b :: mapWhile f as

/-- Model of `InputHandler::parse_input`: handle each pair, then map-while —
an `Except.error` is logged and becomes `none`, i.e. it ends the sequence
exactly like the terminator does. -/
def InputHandler.parse_input (h : InputHandler) (it : List (Nat × String)) : List ℚ :=
  mapWhile (fun p =>
    match h.handle p.1 p.2 with
    | Except.ok v => v
    | Except.error _ => none) it

/-- Model of `Iterator::fold_first`: `none` on an empty sequence, otherwise
fold the tail from the first element. -/
def fold_first (op : ℚ → ℚ → ℚ) : List ℚ → Option ℚ
  | [] => none
  | x :: xs => some (xs.foldl op x)

/-- The numeric value sequence a configuration extracts from the input lines
(the composition of `clean_and_enumerate` and `parse_input` in `main`). -/
def interpret (h : InputHandler) (lines : List String) : List ℚ :=
  h.parse_input (clean_and_enumerate lines)

/-- The value sequence extracted from `lines` when their enumeration starts
at index `n`; `interpret h = runFrom h 0`. -/
def runFrom (h : InputHandler) (n : Nat) (lines : List String) : List ℚ :=
  h.parse_input (List.enumFrom n (lines.map trim))

/-- Model of `main` after CLI parsing: clean, parse, fold, and report.
`none` models the aborts (`unwrap` panic on an empty non-seeded fold). -/
def run (opts : Opts) (lines : List String) : Option ℚ :=
  let identity := identityOf opts.subcmd
  let op := operatorOf opts.subcmd
  let h := InputHandler.ofOpts opts
  let parsed := interpret h lines
  match opts.identity_starting_point with
  | true => some (parsed.foldl op identity)
  | false => fold_first op parsed

/-! Basic unfolding lemmas for the pipeline. -/

theorem parse_input_nil (h : InputHandler) : h.parse_input [] = [] := rfl

theorem parse_input_cons_value {h : InputHandler} {i : Nat} {s : String} {v : ℚ}
    (hh : h.handle i s = Except.ok (some v)) (rest : List (Nat × String)) :
    h.parse_input ((i, s) :: rest) = v :: h.parse_input rest := by
  simp [InputHandler.parse_input, mapWhile, hh]

theorem parse_input_cons_stop {h : InputHandler} {i : Nat} {s : String}
    (hh : h.handle i s = Except.ok none) (rest : List (Nat × String)) :
    h.parse_input ((i, s) :: rest) = [] := by
  simp [InputHandler.parse_input, mapWhile, hh]

theorem parse_input_cons_error {h : InputHandler} {i : Nat} {s : String} {e : String}
    (hh : h.handle i s = Except.error e) (rest : List (Nat × String)) :
    h.parse_input ((i, s) :: rest) = [] := by
  simp [InputHandler.parse_input, mapWhile, hh]

/-! Case lemmas for `InputHandler.handle`, one per branch of the source. -/

theorem handle_ignored {h : InputHandler} {i : Nat} (hi : i < h.ignore) (s : String) :
    h.handle i s = Except.ok (some h.identity) := by
  simp [InputHandler.handle, hi]

theorem handle_stop {h : InputHandler} {i : Nat} (hi : ¬ i < h.ignore) :
    h.handle i "" = Except.ok none := by
  simp [InputHandler.handle, hi]

theorem handle_value {h : InputHandler} {i : Nat} {s : String} {v : ℚ}
    (hi : ¬ i < h.ignore) (hs : s ≠ "") (hp : parseNumber s = some v) :
    h.handle i s = Except.ok (some v) := by
  simp [InputHandler.handle, hi, hs, hp]

theorem handle_silent {h : InputHandler} {i : Nat} {s : String}
    (hi : ¬ i < h.ignore) (hs : s ≠ "") (hp : parseNumber s = none)
    (hsil : h.silent = true) :
    h.handle i s = Except.ok (some h.identity) := by
  simp [InputHandler.handle, hi, hs, hp, hsil]

theorem handle_strict {h : InputHandler} {i : Nat} {s : String}
    (hi : ¬ i < h.ignore) (hs : s ≠ "") (hp : parseNumber s = none)
    (hsil : h.silent = false) :
    h.handle i s = Except.error ("Failed to parse " ++ s ++ " at line " ++ toString (i + 1)) := by
  simp [InputHandler.handle, hi, hs, hp, hsil]

/-! The pipeline from an arbitrary start index. -/

theorem interpret_eq_runFrom (h : InputHandler) (lines : List String) :
    interpret h lines = runFrom h 0 lines := rfl

theorem runFrom_nil (h : InputHandler) (n : Nat) : runFrom h n [] = [] := rfl

theorem enumFrom_map_cons (n : Nat) (l : String) (ls : List String) :
    List.enumFrom n ((l :: ls).map trim) = (n, trim l) :: List.enumFrom (n + 1) (ls.map trim) := rfl

theorem runFrom_cons_value {h : InputHandler} {n : Nat} {l : String} {v : ℚ}
    (hh : h.handle n (trim l) = Except.ok (some v)) (ls : List String) :
    runFrom h n (l :: ls) = v :: runFrom h (n + 1) ls := by
  rw [runFrom, enumFrom_map_cons, parse_input_cons_value hh]
  rfl

theorem runFrom_cons_stop {h : InputHandler} {n : Nat} {l : String}
    (hh : h.handle n (trim l) = Except.ok none) (ls : List String) :
    runFrom h n (l :: ls) = [] := by
  rw [runFrom, enumFrom_map_cons, parse_input_cons_stop hh]

theorem runFrom_cons_error {h : InputHandler} {n : Nat} {l : String} {e : String}
    (hh : h.handle n (trim l) = Except.error e) (ls : List String) :
    runFrom h n (l :: ls) = [] := by
  rw [runFrom, enumFrom_map_cons, parse_input_cons_error hh]

theorem runFrom_cons_ignored {h : InputHandler} {n : Nat} (hn : n < h.ignore)
    (l : String) (ls : List String) :
    runFrom h n (l :: ls) = h.identity :: runFrom h (n + 1) ls :=
  runFrom_cons_value (handle_ignored hn (trim l)) ls

/-- When every line of `xs` (at its stream index, starting from `n`) is
interpreted as a value, the pipeline runs through `xs` and continues into
`ys` at the shifted index. -/
theorem runFrom_append {h : InputHandler} {xs : List String} (n : Nat) (ys : List String)
    (hx : ∀ j (hj : j < xs.length), ∃ v, h.handle (n + j) (trim (xs.get ⟨j, hj⟩)) = Except.ok (some v)) :
    runFrom h n (xs ++ ys) = runFrom h n xs ++ runFrom h (n + xs.length) ys := by
  induction xs generalizing n with
  | nil => simp [runFrom_nil]
  | cons x xs ih =>
    obtain ⟨v, hv⟩ := hx 0 (by simp)
    simp only [Nat.add_zero, List.get] at hv
    have hx' : ∀ j (hj : j < xs.length),
        ∃ v, h.handle (n + 1 + j) (trim (xs.get ⟨j, hj⟩)) = Except.ok (some v) := by
      intro j hj
      obtain ⟨w, hw⟩ := hx (j + 1) (by simpa using hj)
      refine ⟨w, ?_⟩
      have harith : n + (j + 1) = n + 1 + j := by omega
      rw [← harith]
      exact hw
    rw [List.cons_append, runFrom_cons_value hv, runFrom_cons_value hv, ih (n + 1) hx']
    simp only [List.cons_append, List.length_cons]
    have harith : n + 1 + xs.length = n + (xs.length + 1) := by omega
    rw [harith]

/-- When every line is ignored, empty, or a silent parse failure, every
value the pipeline produces is the identity. -/
theorem runFrom_all_identity {h : InputHandler} {lines : List String} (n : Nat)
    (H : ∀ j (hj : j < lines.length),
      n + j < h.ignore ∨ trim (lines.get ⟨j, hj⟩) = "" ∨
        (parseNumber (trim (lines.get ⟨j, hj⟩)) = none ∧ h.silent = true)) :
    ∀ v ∈ runFrom h n lines, v = h.identity := by
  induction lines generalizing n with
  | nil => intro v hv; simp [runFrom_nil] at hv
  | cons l ls ih =>
    have H0 := H 0 (by simp)
    simp only [Nat.add_zero, List.get] at H0
    have Hrest : ∀ j (hj : j < ls.length),
        n + 1 + j < h.ignore ∨ trim (ls.get ⟨j, hj⟩) = "" ∨
          (parseNumber (trim (ls.get ⟨j, hj⟩)) = none ∧ h.silent = true) := by
      intro j hj
      have := H (j + 1) (by simpa using hj)
      simpa [show n + (j + 1) = n + 1 + j by omega] using this
    intro v hv
    rcases H0 with hig | hemp | ⟨hpf, hsil⟩
    · rw [runFrom_cons_ignored hig] at hv
      rcases List.mem_cons.mp hv with hveq | hvmem
      · exact hveq
      · exact ih (n + 1) Hrest v hvmem
    · by_cases hn : n < h.ignore
      · rw [runFrom_cons_ignored hn] at hv
        rcases List.mem_cons.mp hv with hveq | hvmem
        · exact hveq
        · exact ih (n + 1) Hrest v hvmem
      · rw [runFrom_cons_stop (show h.handle n (trim l) = Except.ok none by
          rw [hemp]; exact handle_stop hn)] at hv
        simp at hv
    · by_cases hn : n < h.ignore
      · rw [runFrom_cons_ignored hn] at hv
        rcases List.mem_cons.mp hv with hveq | hvmem
        · exact hveq
        · exact ih (n + 1) Hrest v hvmem
      · by_cases hemp : trim l = ""
        · rw [runFrom_cons_stop (show h.handle n (trim l) = Except.ok none by
            rw [hemp]; exact handle_stop hn)] at hv
          simp at hv
        · rw [runFrom_cons_value (handle_silent hn hemp hpf hsil)] at hv
          rcases List.mem_cons.mp hv with hveq | hvmem
          · exact hveq
          · exact ih (n + 1) Hrest v hvmem

/-! Fold lemmas. -/

theorem foldl_all_eq {op : ℚ → ℚ → ℚ} {e : ℚ} (hop : op e e = e) :
    ∀ vs : List ℚ, (∀ v ∈ vs, v = e) → vs.foldl op e = e := by
  intro vs
  induction vs with
  | nil => intro _; rfl
  | cons v vs ih =>
    intro hall
    have hv : v = e := hall v (by simp)
    have : ∀ w ∈ vs, w = e := fun w hw => hall w (by simp [hw])
    simp only [List.foldl_cons, hv, hop]
    exact ih this

/-- Each operation's identity is idempotent under the operation. -/
theorem op_id_id (c : SubCommand) :
    operatorOf c (identityOf c) (identityOf c) = identityOf c := by
  cases c <;> norm_num [operatorOf, identityOf]

/-! Unfolding `run` by fold mode. -/

theorem run_seeded {opts : Opts} (hs : opts.identity_starting_point = true)
    (lines : List String) :
    run opts lines = some ((interpret (InputHandler.ofOpts opts) lines).foldl
      (operatorOf opts.subcmd) (identityOf opts.subcmd)) := by
  simp [run, hs]

theorem run_unseeded {opts : Opts} (hs : opts.identity_starting_point = false)
    (lines : List String) :
    run opts lines = fold_first (operatorOf opts.subcmd)
      (interpret (InputHandler.ofOpts opts) lines) := by
  simp [run, hs]

/-! Further shared lemmas. -/

theorem runFrom_cons_parsed {h : InputHandler} {n : Nat} {l : String} {v : ℚ}
    (hn : ¬ n < h.ignore) (hne : trim l ≠ "") (hp : parseNumber (trim l) = some v)
    (ls : List String) :
    runFrom h n (l :: ls) = v :: runFrom h (n + 1) ls :=
  runFrom_cons_value (handle_value hn hne hp) ls

theorem parseNumber_eval {s : String} {r : Bool × Nat × Nat × Int}
    (hr : parseRaw s = some r) : parseNumber s = some (ratOf r) := by
  simp [parseNumber, hr]

theorem parseNumber_none {s : String} (hr : parseRaw s = none) : parseNumber s = none := by
  simp [parseNumber, hr]

theorem parseNumber_trim_val {s : String} {m : Nat}
    (hr : parseRaw (trim s) = some (false, m, 0, 0)) :
    parseNumber (trim s) = some (m : ℚ) := by
  rw [parseNumber_eval hr]
  norm_num [ratOf]

/-- A terminator (empty line or strict parse failure) right after a prefix of
value-producing lines cuts the value sequence at the prefix. -/
theorem interpret_append_terminator {h : InputHandler} {pre : List String} {t : String}
    (suf : List String)
    (hpre : ∀ j (hj : j < pre.length),
      ∃ v, h.handle j (trim (pre.get ⟨j, hj⟩)) = Except.ok (some v))
    (hterm : runFrom h pre.length (t :: suf) = []) :
    interpret h (pre ++ t :: suf) = interpret h pre := by
  have hx : ∀ j (hj : j < pre.length),
      ∃ v, h.handle (0 + j) (trim (pre.get ⟨j, hj⟩)) = Except.ok (some v) := by
    intro j hj
    simpa using hpre j hj
  rw [interpret_eq_runFrom, interpret_eq_runFrom, runFrom_append 0 (t :: suf) hx,
    show 0 + pre.length = pre.length from by omega, hterm, List.append_nil]

/-- Two inputs that extract the same value sequence produce the same run
outcome, in either fold mode. -/
theorem run_congr {opts : Opts} {lines₁ lines₂ : List String}
    (hI : interpret (InputHandler.ofOpts opts) lines₁
      = interpret (InputHandler.ofOpts opts) lines₂) :
    run opts lines₁ = run opts lines₂ := by
  cases hmode : opts.identity_starting_point
  · rw [run_unseeded hmode, run_unseeded hmode, hI]
  · rw [run_seeded hmode, run_seeded hmode, hI]

theorem head?_dropWhile {p : Char → Bool} :
    ∀ (l : List Char) (c : Char), (l.dropWhile p).head? = some c → p c = false := by
  intro l
  induction l with
  | nil => intro c hc; simp at hc
  | cons x xs ih =>
    intro c hc
    rw [List.dropWhile_cons] at hc
    by_cases hpx : p x
    · exact ih c (by simpa [hpx] using hc)
    · simp [hpx] at hc
      simpa [← hc] using hpx

theorem reverse_decomp (d : List Char) :
    d = (List.dropWhile Char.isWhitespace d.reverse).reverse
      ++ (List.takeWhile Char.isWhitespace d.reverse).reverse := by
  have h2 := List.takeWhile_append_dropWhile (p := Char.isWhitespace) (l := d.reverse)
  have h3 := congrArg List.reverse h2
  rw [List.reverse_append, List.reverse_reverse] at h3
  exact h3.symm

/-- `trim` strips exactly a whitespace prefix and a whitespace suffix: the
original splits as `a ++ trimmed ++ b` with `a`, `b` all whitespace and the
trimmed part starting and ending in non-whitespace (so internal characters,
including internal whitespace and case, are untouched). -/
theorem trim_spec (s : String) :
    ∃ a b : List Char,
      s.data = a ++ (trim s).data ++ b
      ∧ (∀ c ∈ a, c.isWhitespace = true)
      ∧ (∀ c ∈ b, c.isWhitespace = true)
      ∧ (∀ c : Char, ((trim s).data.head? = some c → c.isWhitespace = false)
          ∧ ((trim s).data.getLast? = some c → c.isWhitespace = false)) := by
  have htd : (trim s).data
      = (List.dropWhile Char.isWhitespace
          ((List.dropWhile Char.isWhitespace s.data).reverse)).reverse := rfl
  have hkey := reverse_decomp (List.dropWhile Char.isWhitespace s.data)
  rw [← htd] at hkey
  refine ⟨s.data.takeWhile Char.isWhitespace,
    ((s.data.dropWhile Char.isWhitespace).reverse.takeWhile Char.isWhitespace).reverse,
    ?_, ?_, ?_, ?_⟩
  · conv_lhs => rw [← List.takeWhile_append_dropWhile (p := Char.isWhitespace) (l := s.data)]
    rw [List.append_assoc, ← hkey]
  · intro c hc
    exact List.mem_takeWhile_imp hc
  · intro c hc
    rw [List.mem_reverse] at hc
    exact List.mem_takeWhile_imp hc
  · intro c
    constructor
    · intro hc
      cases htrim : (trim s).data with
      | nil => rw [htrim] at hc; simp at hc
      | cons c0 cr =>
        rw [htrim] at hc
        simp at hc
        apply head?_dropWhile s.data c
        rw [hkey, htrim, ← hc]
        rfl
    · intro hc
      rw [htd, List.getLast?_reverse] at hc
      exact head?_dropWhile _ c hc

theorem enumFrom_map_fst {α : Type} (n : Nat) (l : List α) :
    (List.enumFrom n l).map Prod.fst = List.range' n l.length := by
  induction l generalizing n with
  | nil => rfl
  | cons x xs ih => simp [List.enumFrom, List.range'_succ, ih]

theorem enumFrom_map_snd {α : Type} (n : Nat) (l : List α) :
    (List.enumFrom n l).map Prod.snd = l := by
  induction l generalizing n with
  | nil => rfl
  | cons x xs ih => simp [List.enumFrom, ih]

theorem enum_map_fst {α : Type} (l : List α) :
    (l.enum).map Prod.fst = List.range l.length := by
  rw [List.enum, enumFrom_map_fst, List.range_eq_range']

/-- The two-value non-seeded run: the result is the operator applied to the
two parsed values in input order. -/
theorem run2_unseeded (c : SubCommand) (s₁ s₂ : String) (q₁ q₂ : ℚ)
    (h₁ : parseNumber (trim s₁) = some q₁) (hne₁ : trim s₁ ≠ "")
    (h₂ : parseNumber (trim s₂) = some q₂) (hne₂ : trim s₂ ≠ "") :
    run (Opts.mk c false false 0) [s₁, s₂] = some (operatorOf c q₁ q₂) := by
  rw [run_unseeded rfl, interpret_eq_runFrom,
    runFrom_cons_parsed (by simp [InputHandler.ofOpts]) hne₁ h₁,
    runFrom_cons_parsed (by simp [InputHandler.ofOpts]) hne₂ h₂,
    runFrom_nil]
  rfl

/-! The claims. -/

/-- Claim C1: with silent = false, a line at index `i ≥ ignore` that is
non-empty after trimming and fails to parse produces the failure message
exactly `"Failed to parse {text} at line {i+1}"` (1-based), the value
sequence ends at that line, and the run is not aborted by the failure
itself: it behaves exactly as if the input had ended before the failing
line, so the fold runs over the values collected strictly before it. -/
theorem c1_strict_failure_truncates (opts : Opts) (pre suf : List String) (t : String)
    (hsil : opts.silent = false) (hig : opts.ignore ≤ pre.length)
    (hne : trim t ≠ "") (hp : parseNumber (trim t) = none)
    (hpre : ∀ j (hj : j < pre.length),
      ∃ v, (InputHandler.ofOpts opts).handle j (trim (pre.get ⟨j, hj⟩)) = Except.ok (some v)) :
    (InputHandler.ofOpts opts).handle pre.length (trim t)
      = Except.error ("Failed to parse " ++ trim t ++ " at line " ++ toString (pre.length + 1))
    ∧ interpret (InputHandler.ofOpts opts) (pre ++ t :: suf)
      = interpret (InputHandler.ofOpts opts) pre
    ∧ run opts (pre ++ t :: suf) = run opts pre := by
  have hnlt : ¬ pre.length < (InputHandler.ofOpts opts).ignore := by
    simp only [InputHandler.ofOpts]
    omega
  have herr : (InputHandler.ofOpts opts).handle pre.length (trim t)
      = Except.error ("Failed to parse " ++ trim t ++ " at line " ++ toString (pre.length + 1)) :=
    handle_strict hnlt hne hp hsil
  have hint : interpret (InputHandler.ofOpts opts) (pre ++ t :: suf)
      = interpret (InputHandler.ofOpts opts) pre :=
    interpret_append_terminator suf hpre (runFrom_cons_error herr suf)
  exact ⟨herr, hint, run_congr hint⟩

/-- Witness for C1: seeded add run, no ignored prefix, value line "5", then
the unparsable line "abc" at index 1, then a further line "7". -/
theorem c1_witness :
    (InputHandler.ofOpts (Opts.mk SubCommand.add true false 0)).handle 1 (trim "abc")
      = Except.error ("Failed to parse " ++ trim "abc" ++ " at line " ++ toString (1 + 1))
    ∧ interpret (InputHandler.ofOpts (Opts.mk SubCommand.add true false 0)) (["5"] ++ "abc" :: ["7"])
      = interpret (InputHandler.ofOpts (Opts.mk SubCommand.add true false 0)) ["5"]
    ∧ run (Opts.mk SubCommand.add true false 0) (["5"] ++ "abc" :: ["7"])
      = run (Opts.mk SubCommand.add true false 0) ["5"] := by
  exact c1_strict_failure_truncates (Opts.mk SubCommand.add true false 0)
    ["5"] ["7"] "abc" rfl (by decide) (by decide) (parseNumber_none (by decide))
    (by
      intro j hj
      have hj1 : j < 1 := by simpa using hj
      have hj0 : j = 0 := by omega
      subst hj0
      refine ⟨ratOf (false, 5, 0, 0), ?_⟩
      show (InputHandler.ofOpts (Opts.mk SubCommand.add true false 0)).handle 0 (trim "5")
        = Except.ok (some (ratOf (false, 5, 0, 0)))
      exact handle_value (by decide) (by decide) (parseNumber_eval (by decide)))

/-- Claim C2 counterexample: the input `["x", ""]` with ignore = 1 has every
line skipped (line 0 is in the ignored prefix) or empty (line 1), yet the
non-seeded run is not fatal: the ignored line contributes the identity 0,
which seeds the fold, and the run prints 0. -/
theorem c2_counterexample :
    (∀ j (hj : j < (["x", ""] : List String).length),
      j < 1 ∨ trim ((["x", ""] : List String).get ⟨j, hj⟩) = "")
    ∧ run (Opts.mk SubCommand.add false false 1) ["x", ""] = some 0
    ∧ run (Opts.mk SubCommand.add false false 1) ["x", ""] ≠ none := by
  refine ⟨by decide, ?_, ?_⟩
  · rw [run_unseeded rfl, interpret_eq_runFrom,
      runFrom_cons_ignored (by decide),
      runFrom_cons_stop (show (InputHandler.ofOpts (Opts.mk SubCommand.add false false 1)).handle
        (0 + 1) (trim "") = Except.ok none from handle_stop (by decide))]
    rfl
  · rw [run_unseeded rfl, interpret_eq_runFrom,
      runFrom_cons_ignored (by decide),
      runFrom_cons_stop (show (InputHandler.ofOpts (Opts.mk SubCommand.add false false 1)).handle
        (0 + 1) (trim "") = Except.ok none from handle_stop (by decide))]
    simp [fold_first]

/-- Claim C2 (amended): over an input whose lines are all skipped
(ignored-prefix lines or silent-mode parse failures) or empty, the seeded
run yields exactly the identity; the non-seeded run is fatal exactly when
the value sequence is empty (no line before the terminator contributes a
value), and otherwise it also yields the identity, because every collected
value is the identity. -/
theorem c2_all_skipped (c : SubCommand) (sil : Bool) (ig : Nat) (lines : List String)
    (H : ∀ j (hj : j < lines.length),
      j < ig ∨ trim (lines.get ⟨j, hj⟩) = "" ∨
        (parseNumber (trim (lines.get ⟨j, hj⟩)) = none ∧ sil = true)) :
    run (Opts.mk c true sil ig) lines = some (identityOf c)
    ∧ (interpret (InputHandler.mk (identityOf c) ig sil) lines = [] →
        run (Opts.mk c false sil ig) lines = none)
    ∧ (interpret (InputHandler.mk (identityOf c) ig sil) lines ≠ [] →
        run (Opts.mk c false sil ig) lines = some (identityOf c)) := by
  have hOfT : InputHandler.ofOpts (Opts.mk c true sil ig)
      = InputHandler.mk (identityOf c) ig sil := rfl
  have hOfF : InputHandler.ofOpts (Opts.mk c false sil ig)
      = InputHandler.mk (identityOf c) ig sil := rfl
  have hid : ∀ v ∈ runFrom (InputHandler.mk (identityOf c) ig sil) 0 lines,
      v = identityOf c := by
    apply runFrom_all_identity 0
    intro j hj
    simpa using H j hj
  refine ⟨?_, ?_, ?_⟩
  · rw [run_seeded rfl, hOfT, interpret_eq_runFrom]
    exact congrArg some (foldl_all_eq (op_id_id c) _ hid)
  · intro hemp
    rw [run_unseeded rfl, hOfF, hemp]
    rfl
  · intro hne
    rw [run_unseeded rfl, hOfF]
    rw [interpret_eq_runFrom] at hne ⊢
    obtain ⟨v, rest, hvr⟩ := List.exists_cons_of_ne_nil hne
    rw [hvr]
    have hv : v = identityOf c := hid v (by rw [hvr]; exact List.mem_cons_self v rest)
    have hrest : ∀ w ∈ rest, w = identityOf c := by
      intro w hw
      exact hid w (by rw [hvr]; exact List.mem_cons_of_mem v hw)
    show some (rest.foldl (operatorOf c) v) = some (identityOf c)
    rw [hv]
    exact congrArg some (foldl_all_eq (op_id_id c) rest hrest)

/-- Witness for C2 (amended): add, ignore = 1, input `["x", ""]` — the first
line is in the ignored prefix, the second is empty. -/
theorem c2_witness :
    run (Opts.mk SubCommand.add true false 1) ["x", ""] = some (identityOf SubCommand.add)
    ∧ (interpret (InputHandler.mk (identityOf SubCommand.add) 1 false) ["x", ""] = [] →
        run (Opts.mk SubCommand.add false false 1) ["x", ""] = none)
    ∧ (interpret (InputHandler.mk (identityOf SubCommand.add) 1 false) ["x", ""] ≠ [] →
        run (Opts.mk SubCommand.add false false 1) ["x", ""] = some (identityOf SubCommand.add)) :=
  c2_all_skipped SubCommand.add false 1 ["x", ""] (by decide)

/-- Claim C3: a line whose index is below the ignore count is interpreted as
the identity value regardless of its text — even empty or unparsable text —
and it never terminates the stream: the pipeline continues past it. -/
theorem c3_ignored_prefix (h : InputHandler) (i : Nat) (val : String)
    (rest : List (Nat × String)) (hi : i < h.ignore) :
    h.handle i val = Except.ok (some h.identity)
    ∧ h.parse_input ((i, val) :: rest) = h.identity :: h.parse_input rest :=
  ⟨handle_ignored hi val, parse_input_cons_value (handle_ignored hi val) rest⟩

/-- Witness for C3: an empty line at index 0 inside an ignored prefix of 2
resolves to the identity and does not end the stream. -/
theorem c3_witness :
    (InputHandler.mk 0 2 false).handle 0 "" = Except.ok (some (0 : ℚ))
    ∧ (InputHandler.mk 0 2 false).parse_input ((0, "") :: [(1, "x")])
      = (0 : ℚ) :: (InputHandler.mk 0 2 false).parse_input [(1, "x")] :=
  c3_ignored_prefix (InputHandler.mk 0 2 false) 0 "" [(1, "x")] (by decide)

/-- Claim C4: with ignore = 2, silent = false, operation add, non-seeded
mode, and input lines "x", "y", "3.0", the run succeeds with result 3.0,
the first two lines being ignored. -/
theorem c4_ignore_two_scenario :
    run (Opts.mk SubCommand.add false false 2) ["x", "y", "3.0"] = some 3 := by
  rw [run_unseeded rfl, interpret_eq_runFrom,
    runFrom_cons_ignored (by decide),
    runFrom_cons_ignored (by decide),
    runFrom_cons_parsed (by decide) (by decide)
      (parseNumber_eval (show parseRaw (trim "3.0") = some (false, 30, 1, 0) by decide)),
    runFrom_nil]
  norm_num [fold_first, operatorOf, identityOf, InputHandler.ofOpts, ratOf]

/-- Claim C5: the first empty trimmed line at an index at or past the ignore
count terminates interpretation: it contributes no value, and no line after
it contributes a value — the outcome equals that of the input cut before
the empty line, in either fold mode. -/
theorem c5_empty_line_terminates (opts : Opts) (pre suf : List String) (t : String)
    (hig : opts.ignore ≤ pre.length) (hemp : trim t = "")
    (hpre : ∀ j (hj : j < pre.length),
      ∃ v, (InputHandler.ofOpts opts).handle j (trim (pre.get ⟨j, hj⟩)) = Except.ok (some v)) :
    (InputHandler.ofOpts opts).handle pre.length (trim t) = Except.ok none
    ∧ interpret (InputHandler.ofOpts opts) (pre ++ t :: suf)
      = interpret (InputHandler.ofOpts opts) pre
    ∧ run opts (pre ++ t :: suf) = run opts pre := by
  have hnlt : ¬ pre.length < (InputHandler.ofOpts opts).ignore := by
    simp only [InputHandler.ofOpts]
    omega
  have hstop : (InputHandler.ofOpts opts).handle pre.length (trim t) = Except.ok none := by
    rw [hemp]
    exact handle_stop hnlt
  have hint : interpret (InputHandler.ofOpts opts) (pre ++ t :: suf)
      = interpret (InputHandler.ofOpts opts) pre :=
    interpret_append_terminator suf hpre (runFrom_cons_stop hstop suf)
  exact ⟨hstop, hint, run_congr hint⟩

/-- Witness for C5: mul, no ignored prefix, value line "2", then a line of
blanks (trimming to empty) at index 1, then a further line "9". -/
theorem c5_witness :
    (InputHandler.ofOpts (Opts.mk SubCommand.mul false false 0)).handle 1 (trim "   ")
      = Except.ok none
    ∧ interpret (InputHandler.ofOpts (Opts.mk SubCommand.mul false false 0))
        (["2"] ++ "   " :: ["9"])
      = interpret (InputHandler.ofOpts (Opts.mk SubCommand.mul false false 0)) ["2"]
    ∧ run (Opts.mk SubCommand.mul false false 0) (["2"] ++ "   " :: ["9"])
      = run (Opts.mk SubCommand.mul false false 0) ["2"] := by
  exact c5_empty_line_terminates (Opts.mk SubCommand.mul false false 0)
    ["2"] ["9"] "   " (by decide) (by decide)
    (by
      intro j hj
      have hj1 : j < 1 := by simpa using hj
      have hj0 : j = 0 := by omega
      subst hj0
      refine ⟨ratOf (false, 2, 0, 0), ?_⟩
      show (InputHandler.ofOpts (Opts.mk SubCommand.mul false false 0)).handle 0 (trim "2")
        = Except.ok (some (ratOf (false, 2, 0, 0)))
      exact handle_value (by decide) (by decide) (parseNumber_eval (by decide)))

/-- Claim C6: with silent = true, a line at index at or past the ignore
count that is non-empty after trimming and fails to parse yields the
identity value in its place — no failure, no termination — and processing
of subsequent lines continues. -/
theorem c6_silent_failure_identity (h : InputHandler) (n : Nat) (t : String)
    (ls : List String) (hsil : h.silent = true) (hig : h.ignore ≤ n)
    (hne : trim t ≠ "") (hp : parseNumber (trim t) = none) :
    h.handle n (trim t) = Except.ok (some h.identity)
    ∧ runFrom h n (t :: ls) = h.identity :: runFrom h (n + 1) ls := by
  have hh : h.handle n (trim t) = Except.ok (some h.identity) :=
    handle_silent (by omega) hne hp hsil
  exact ⟨hh, runFrom_cons_value hh ls⟩

/-- Witness for C6: identity 1 (mul/div), silent mode, unparsable line "abc"
at index 0 followed by "2". -/
theorem c6_witness :
    (InputHandler.mk 1 0 true).handle 0 (trim "abc") = Except.ok (some (1 : ℚ))
    ∧ runFrom (InputHandler.mk 1 0 true) 0 ["abc", "2"]
      = (1 : ℚ) :: runFrom (InputHandler.mk 1 0 true) (0 + 1) ["2"] :=
  c6_silent_failure_identity (InputHandler.mk 1 0 true) 0 "abc" ["2"]
    rfl (by decide) (by decide) (parseNumber_none (by decide))

/-- Claim C7: with useIdentityAsSeed true, the result is exactly the left
fold of the operator over the extracted numeric sequence starting from the
operation's identity, and in particular an empty numeric sequence yields
exactly the identity. -/
theorem c7_seeded_fold (opts : Opts) (lines : List String)
    (hs : opts.identity_starting_point = true) :
    run opts lines = some ((interpret (InputHandler.ofOpts opts) lines).foldl
      (operatorOf opts.subcmd) (identityOf opts.subcmd))
    ∧ (interpret (InputHandler.ofOpts opts) lines = [] →
        run opts lines = some (identityOf opts.subcmd)) := by
  refine ⟨run_seeded hs lines, fun hemp => ?_⟩
  rw [run_seeded hs lines, hemp]
  rfl

/-- Witness for C7: seeded mul over an empty input yields the identity 1. -/
theorem c7_witness :
    run (Opts.mk SubCommand.mul true false 0) [] = some ((interpret
      (InputHandler.ofOpts (Opts.mk SubCommand.mul true false 0)) []).foldl
      (operatorOf SubCommand.mul) (identityOf SubCommand.mul))
    ∧ (interpret (InputHandler.ofOpts (Opts.mk SubCommand.mul true false 0)) [] = [] →
        run (Opts.mk SubCommand.mul true false 0) [] = some (identityOf SubCommand.mul)) :=
  c7_seeded_fold (Opts.mk SubCommand.mul true false 0) [] rfl

/-- Claim C8: in default non-seeded mode, add over 5 and 4 yields 9, sub
over 6 and 2 yields 4, mul over 2 and 3 yields 6, and div over 7 and 3
yields approximately 2.3333333 (exactly 7/3 in the rational model). -/
theorem c8_roundtrip :
    run (Opts.mk SubCommand.add false false 0) ["5", "4"] = some 9
    ∧ run (Opts.mk SubCommand.sub false false 0) ["6", "2"] = some 4
    ∧ run (Opts.mk SubCommand.mul false false 0) ["2", "3"] = some 6
    ∧ ∃ q : ℚ, run (Opts.mk SubCommand.div false false 0) ["7", "3"] = some q
        ∧ |q - 2.3333333| < 1 / 1000000 := by
  refine ⟨?_, ?_, ?_, ⟨7 / 3, ?_, ?_⟩⟩
  · rw [run2_unseeded SubCommand.add "5" "4" 5 4
      (parseNumber_trim_val (by decide)) (by decide)
      (parseNumber_trim_val (by decide)) (by decide)]
    norm_num [operatorOf]
  · rw [run2_unseeded SubCommand.sub "6" "2" 6 2
      (parseNumber_trim_val (by decide)) (by decide)
      (parseNumber_trim_val (by decide)) (by decide)]
    norm_num [operatorOf]
  · rw [run2_unseeded SubCommand.mul "2" "3" 2 3
      (parseNumber_trim_val (by decide)) (by decide)
      (parseNumber_trim_val (by decide)) (by decide)]
    norm_num [operatorOf]
  · rw [run2_unseeded SubCommand.div "7" "3" 7 3
      (parseNumber_trim_val (by decide)) (by decide)
      (parseNumber_trim_val (by decide)) (by decide)]
    norm_num [operatorOf]
  · rw [abs_sub_lt_iff]
    constructor <;> norm_num

/-- Claim C9: cleaning strips exactly leading and trailing whitespace
(preserving the interior, hence internal whitespace and case), tags each
line with its zero-based index in input order, and on the example input
produces "1", "2", "3" at indices 0, 1, 2. -/
theorem c9_cleaning :
    (∀ lines : List String,
      (clean_and_enumerate lines).map Prod.fst = List.range lines.length
      ∧ (clean_and_enumerate lines).map Prod.snd = lines.map trim)
    ∧ (∀ s : String, ∃ a b : List Char,
        s.data = a ++ (trim s).data ++ b
        ∧ (∀ c ∈ a, c.isWhitespace = true)
        ∧ (∀ c ∈ b, c.isWhitespace = true)
        ∧ (∀ c : Char, ((trim s).data.head? = some c → c.isWhitespace = false)
            ∧ ((trim s).data.getLast? = some c → c.isWhitespace = false)))
    ∧ clean_and_enumerate ["\t\t1", "2\t\t", "   3   "] = [(0, "1"), (1, "2"), (2, "3")] := by
  refine ⟨fun lines => ⟨?_, ?_⟩, trim_spec, by decide⟩
  · show ((lines.map trim).enum).map Prod.fst = List.range lines.length
    rw [enum_map_fst, List.length_map]
  · exact enumFrom_map_snd 0 (lines.map trim)

/-- Witness for C9: the trim decomposition applied to a concrete line, and
the concrete cleaning example. -/
theorem c9_witness :
    clean_and_enumerate ["\t\t1", "2\t\t", "   3   "] = [(0, "1"), (1, "2"), (2, "3")]
    ∧ (clean_and_enumerate ["x", "y"]).map Prod.fst = List.range 2 :=
  ⟨c9_cleaning.2.2, (c9_cleaning.1 ["x", "y"]).1⟩

/-- Claim C10: identity values substituted for ignored-prefix lines are
ordinary elements of the folded sequence: in non-seeded mode with
ignore ≥ 1, the identity produced by the first (ignored) line seeds the
fold, so the run equals the fold of the remaining values started from the
identity; concretely, ignore = 1 with div over lines "x", "8" yields
1/8 = 0.125, not 8. -/
theorem c10_identity_is_seed (c : SubCommand) (sil : Bool) (ig : Nat)
    (l : String) (rest : List String) (hig : 1 ≤ ig) :
    run (Opts.mk c false sil ig) (l :: rest)
      = some ((runFrom (InputHandler.mk (identityOf c) ig sil) 1 rest).foldl
          (operatorOf c) (identityOf c))
    ∧ run (Opts.mk SubCommand.div false false 1) ["x", "8"] = some 0.125
    ∧ (0.125 : ℚ) ≠ 8 := by
  refine ⟨?_, ?_, by norm_num⟩
  · rw [run_unseeded rfl, interpret_eq_runFrom,
      runFrom_cons_ignored (show 0 < (InputHandler.ofOpts (Opts.mk c false sil ig)).ignore
        from hig)]
    rfl
  · rw [run_unseeded rfl, interpret_eq_runFrom,
      runFrom_cons_ignored (by decide),
      runFrom_cons_parsed (by decide) (by decide)
        (parseNumber_trim_val (show parseRaw (trim "8") = some (false, 8, 0, 0) by decide)),
      runFrom_nil]
    norm_num [fold_first, operatorOf, identityOf, InputHandler.ofOpts]

/-- Witness for C10: div with ignore = 1 over lines "x", "8". -/
theorem c10_witness :
    run (Opts.mk SubCommand.div false false 1) ["x", "8"]
      = some ((runFrom (InputHandler.mk (identityOf SubCommand.div) 1 false) 1 ["8"]).foldl
          (operatorOf SubCommand.div) (identityOf SubCommand.div))
    ∧ run (Opts.mk SubCommand.div false false 1) ["x", "8"] = some 0.125
    ∧ (0.125 : ℚ) ≠ 8 :=
  c10_identity_is_seed SubCommand.div false 1 "x" ["8"] (by decide)

end Mathcli
